import Mathlib

/-!
Shallow embedding of the extraction-and-matching core of
`src/scrape_prices.py` (Checkers price scraper), together with proofs of
the specification claims about it.

Modelling conventions, fixed once here:

* Python `float` values are modelled as exact rationals (`Rat`).  All
  numeric literals appearing in the claims are small decimals on which
  Python float arithmetic is exact, so nothing in the claims depends on
  binary rounding.
* Python regular expressions over the relevant patterns are implemented
  directly.  The three patterns in the source,
  `(\d+(?:\.\d+)?)`, `PACK_RE` and `SINGLE_RE`, are backtracking-free in
  the sense that the greedy maximal-munch match at a position succeeds
  iff any match at that position succeeds (a shorter digit run or a
  dropped fractional part always leaves a digit in a position where the
  pattern requires a non-digit), so leftmost maximal-munch scanning
  implements `re.search` for them exactly.
* Character classes (`\s`, `\w`, `str.lower`) are modelled on their
  ASCII behaviour, which is what the scraped inputs exercise.
* BeautifulSoup DOM queries are abstracted: a `Card` record carries, for
  each selector list of the source, the texts that the selectors would
  return.  The per-card control flow (lines 215-249 of the source) is
  translated faithfully on top of that record.
-/

namespace Scrape

/-! ## Character classes -/

/-- Python regex class `\s`, restricted to ASCII. -/
def isSpace (c : Char) : Bool :=
  c = ' ' || c = '\t' || c = '\n' || c = '\r' || c = '\x0b' || c = '\x0c'

/-- Python regex class `\w` (letters, digits, underscore), ASCII. -/
def isWordChar (c : Char) : Bool :=
  c.isAlphanum || c = '_'

/-! ## Text Normalizer (source lines 47-51) -/

/-- Worker for `collapseWS`; the flag records whether the previous
character belonged to a whitespace run already replaced by a space. -/
def collapseWSAux : Bool → List Char → List Char
  | _, [] => []
  | inRun, c :: cs =>
    if isSpace c then
      if inRun then collapseWSAux true cs
      else ' ' :: collapseWSAux true cs
    else c :: collapseWSAux false cs

/-- Python `re.sub(r"\s+", " ", s)`: every maximal run of whitespace is
replaced by a single space. -/
def collapseWS (l : List Char) : List Char := collapseWSAux false l

/-- Python `str.lstrip` over whitespace (left half of `.strip()`). -/
def ltrimWS (l : List Char) : List Char := l.dropWhile isSpace

/-- Python `str.rstrip` over whitespace (right half of `.strip()`). -/
def rtrimWS (l : List Char) : List Char := (l.reverse.dropWhile isSpace).reverse

/-- Python `str.strip()` (no arguments): drop whitespace at both ends. -/
def pyStrip (l : List Char) : List Char := rtrimWS (ltrimWS l)

/-- Normalisation on character lists: collapse whitespace runs, then
strip both ends. -/
def normalizeL (l : List Char) : List Char := pyStrip (collapseWS l)

/-- Source line 47-48: `normalize(s) = re.sub(r"\s+", " ", s or "").strip()`. -/
def normalize (s : String) : String := String.mk (normalizeL s.data)

/-- Python `str.lower()`, charwise (ASCII model). -/
def toLowerL (l : List Char) : List Char := l.map Char.toLower

/-- Worker for `wordRuns`; `acc` is the reversed current run. -/
def wordRunsAux : List Char → List Char → List (List Char)
  | acc, [] => if acc.isEmpty then [] else [acc.reverse]
  | acc, c :: cs =>
    if isWordChar c then wordRunsAux (c :: acc) cs
    else if acc.isEmpty then wordRunsAux [] cs
    else acc.reverse :: wordRunsAux [] cs

/-- Maximal runs of word characters of a character list, in order.
Together with the lowercasing in `tokens` this implements
`re.split(r"[^\w]+", s.lower())` followed by dropping empty pieces
(source lines 50-51). -/
def wordRuns (l : List Char) : List (List Char) := wordRunsAux [] l

/-- Source lines 50-51: lowercase word tokens of a string. -/
def tokens (s : String) : List String :=
  (wordRuns (toLowerL s.data)).map String.mk

/-- Distinct tokens of a string, as a finite set. -/
def tokenSet (s : String) : Finset String := (tokens s).toFinset

/-- Division on `Rat`, computed on numerators and denominators.  This
equals `a / b` (lemma `ratDiv_eq_div` below); the built-in `Rat`
arithmetic is marked irreducible, which would block kernel evaluation
of witnesses, so the embedding computes through `Rat.divInt`/`mkRat`. -/
def ratDiv (a b : Rat) : Rat := Rat.divInt (a.num * b.den) ((a.den : Int) * b.num)

/-- Addition on `Rat` through `Rat.divInt`; equals `a + b`. -/
def ratAdd (a b : Rat) : Rat :=
  Rat.divInt (a.num * b.den + b.num * a.den) ((a.den : Int) * b.den)

/-- Multiplication on `Rat` through `Rat.divInt`; equals `a * b`. -/
def ratMul (a b : Rat) : Rat := Rat.divInt (a.num * b.num) ((a.den : Int) * b.den)

/-- Negation on `Rat` through `Rat.divInt`; equals `-a`. -/
def ratNeg (a : Rat) : Rat := Rat.divInt (-a.num) (a.den : Int)

/-- Source lines 53-55: `sim_words(a, b) = len(A and B) / len(A) if A else 0.0`
where `A`, `B` are the token sets of `a` and `b`. -/
def sim_words (a b : String) : Rat :=
  if tokenSet a = ∅ then 0
  else ratDiv ((tokenSet a ∩ tokenSet b).card : Rat) (((tokenSet a).card : Rat))

/-! ## Decimal-number matching (the regex `(\d+(?:\.\d+)?)`) -/

/-- Split a character list into its maximal digit run and the rest. -/
def digitSpan (l : List Char) : List Char × List Char :=
  (l.takeWhile Char.isDigit, l.dropWhile Char.isDigit)

/-- A matched decimal literal: integer digits plus optional fraction digits. -/
structure NumLit where
  intPart : List Char
  fracPart : Option (List Char)
deriving Repr, DecidableEq

/-- Numeric value of a digit run. -/
def digitsVal (d : List Char) : Nat :=
  d.foldl (fun a c => 10 * a + (c.toNat - 48)) 0

/-- Exact value of a decimal literal (models Python `float(lit)`). -/
def numVal (n : NumLit) : Rat :=
  ratAdd (digitsVal n.intPart : Rat)
    (match n.fracPart with
     | none => 0
     | some f => mkRat (digitsVal f) (10 ^ f.length))

/-- Match `\d+(?:\.\d+)?` at the start of the list (maximal munch). -/
def matchNum (l : List Char) : Option (NumLit × List Char) :=
  let (d, r) := digitSpan l
  if d.isEmpty then none
  else if r.head? = some '.' then
    let (f, r3) := digitSpan r.tail
    if f.isEmpty then some (⟨d, none⟩, r) else some (⟨d, some f⟩, r3)
  else some (⟨d, none⟩, r)

/-- Python `re.search(r"(\d+(?:\.\d+)?)", .)`: the leftmost decimal literal. -/
def searchNum : List Char → Option NumLit
  | [] => none
  | c :: cs =>
    match matchNum (c :: cs) with
    | some (n, _) => some n
    | none => searchNum cs

/-- Source lines 135-138, as a function of the concatenated span text:
remove spaces, turn commas into periods, strip leading currency letters
`R`/`r`, then extract the leftmost decimal number, if any. -/
def parsePriceText (s : String) : Option Rat :=
  let txt := ((s.data.filter (fun c => !(c == ' '))).map
      (fun c => if c == ',' then '.' else c)).dropWhile
    (fun c => c == 'R' || c == 'r')
  (searchNum txt).map numVal

/-! ## Size/Unit Parser (source lines 57-82) -/

/-- Match one unit alternative followed by the word boundary `\b`. -/
def tryUnit (u : String) (l : List Char) : Option (String × List Char) :=
  if u.data.isPrefixOf l then
    let rest := l.drop u.length
    match rest with
    | [] => some (u, rest)
    | c :: _ => if isWordChar c then none else some (u, rest)
  else none

/-- The alternation `(g|kg|ml|l)\b`, alternatives tried in source order. -/
def matchUnit (l : List Char) : Option (String × List Char) :=
  tryUnit "g" l <|> tryUnit "kg" l <|> tryUnit "ml" l <|> tryUnit "l" l

/-- Match `PACK_RE` at the start of the list: number, optional spaces, an
`x` or multiplication sign, optional spaces, number, optional spaces,
unit token with word boundary.  The input has already been lowercased,
which absorbs the `re.I` flag of the source pattern. -/
def matchPackAt (l : List Char) : Option (NumLit × NumLit × String) := do
  let (n1, r1) ← matchNum l
  match r1.dropWhile isSpace with
  | [] => none
  | c :: r2 =>
    if c = 'x' || c = '×' then do
      let (n2, r3) ← matchNum (r2.dropWhile isSpace)
      let (u, _) ← matchUnit (r3.dropWhile isSpace)
      some (n1, n2, u)
    else none

/-- Leftmost `PACK_RE` match (Python `PACK_RE.search`). -/
def searchPack : List Char → Option (NumLit × NumLit × String)
  | [] => none
  | c :: cs =>
    match matchPackAt (c :: cs) with
    | some r => some r
    | none => searchPack cs

/-- Match `SINGLE_RE` at the start of the list: number, optional spaces,
unit token with word boundary. -/
def matchSingleAt (l : List Char) : Option (NumLit × String) := do
  let (v, r) ← matchNum l
  let (u, _) ← matchUnit (r.dropWhile isSpace)
  some (v, u)

/-- Leftmost `SINGLE_RE` match (Python `SINGLE_RE.search`). -/
def searchSingle : List Char → Option (NumLit × String)
  | [] => none
  | c :: cs =>
    match matchSingleAt (c :: cs) with
    | some r => some r
    | none => searchSingle cs

/-- Drop leading zeros of an integer digit run, keeping at least one digit. -/
def stripLeadZeros (d : List Char) : List Char :=
  match d.dropWhile (fun c => c = '0') with
  | [] => ['0']
  | r => r

/-- Drop trailing zeros of a fraction digit run. -/
def stripTrailZeros (f : List Char) : List Char :=
  (f.reverse.dropWhile (fun c => c = '0')).reverse

/-- Canonical fraction digits of a literal (empty when the value is integral). -/
def canonFrac (n : NumLit) : List Char :=
  match n.fracPart with
  | none => []
  | some f => stripTrailZeros f

/-- Python `repr`/f-string rendering of `float(lit)`: leading zeros of the
integer part and trailing zeros of the fraction disappear, and an
integral value is printed with a trailing `.0`.  Exact for the decimal
literals the size grammar produces (shortest round-trip printing gives
back the canonicalised literal for up to 15 significant digits). -/
def pyFloatStr (n : NumLit) : String :=
  let i := stripLeadZeros n.intPart
  let f := canonFrac n
  if f.isEmpty then String.mk i ++ ".0" else String.mk i ++ "." ++ String.mk f

/-- Python `f-string` piece `int(n) if n.is_integer() else n` of source
line 73: an integral count is printed without a decimal point. -/
def pyIntOrFloatStr (n : NumLit) : String :=
  if (canonFrac n).isEmpty then String.mk (stripLeadZeros n.intPart)
  else pyFloatStr n

/-- Unit scalar of source lines 71 and 78: kilograms and liters scale by
1, grams and milliliters by 1/1000. -/
def unitScalar (u : String) : Rat :=
  if u = "kg" || u = "l" then 1 else mkRat 1 1000

/-- Output unit kind of source lines 72 and 79 (MASS is rendered "kg",
VOLUME is rendered "L"). -/
def unitOut (u : String) : String :=
  if u = "ml" || u = "l" then "L" else "kg"

/-- Source lines 61-82: `parse_size(text)` returns
`(qty_in_base, unit_type, display)`; the pack grammar is tried first,
then the single grammar, then the count default `(1, "each", "each")`. -/
def parse_size (text : String) : Rat × String × String :=
  let t := normalizeL (toLowerL text.data)
  match searchPack t with
  | some (n, each, u) =>
    (ratMul (ratMul (numVal n) (numVal each)) (unitScalar u), unitOut u,
      pyIntOrFloatStr n ++ " x " ++ pyFloatStr each ++ " " ++ u)
  | none =>
    match searchSingle t with
    | some (v, u) =>
      (ratMul (numVal v) (unitScalar u), unitOut u, pyFloatStr v ++ " " ++ u)
    | none => (1, "each", "each")

/-! ## Unit-Price Calculator (source lines 84-85) -/

/-- The floor constant `1e-6` of source line 85. -/
def eps : Rat := mkRat 1 1000000

/-- Source lines 84-85: price per canonical unit. -/
def ppu (price qty : Rat) (unit_type : String) : Rat :=
  if unit_type = "each" then price else ratDiv price (max qty eps)

/-! ## Listings and the Match Selector (source lines 87-89, 240-248) -/

/-- One extracted listing, with the fields built at source lines 240-248. -/
structure Hit where
  name : String
  price : Rat
  size_display : String
  ppu : Rat
  unit_type : String
  url : Option String
  image : Option String
deriving Repr, DecidableEq

/-- Sort key of source line 89: `(-sim_words(ingredient, name), ppu)`. -/
def simKey (ing : String) (h : Hit) : Rat × Rat :=
  (ratNeg (sim_words ing h.name), h.ppu)

/-- Strict lexicographic order on sort keys. -/
def keyLt (a b : Rat × Rat) : Bool :=
  decide (a.1 < b.1) || (decide (a.1 = b.1) && decide (a.2 < b.2))

/-- First element of the stable ascending sort by `simKey`, computed as
the leftmost element attaining the minimal key: `sorted(hits, key)[0]`
with a stable sort returns exactly that element. -/
def best_of (ing : String) (h : Hit) (t : List Hit) : Hit :=
  t.foldl (fun best x => if keyLt (simKey ing x) (simKey ing best) then x else best) h

/-- Source lines 87-89: `pick_best(ingredient, hits)`. -/
def pick_best (ing : String) (hits : List Hit) : Option Hit :=
  match hits with
  | [] => none
  | h :: t => some (best_of ing h t)

/-! ## Card Extractor (source lines 99-150 and 215-249)

DOM queries are abstracted: a `Card` stores, per selector list of the
source, the texts that `select_one` would deliver (an entry is the text
of the first node matching that selector, or marks its absence). -/

/-- A price fallback node: its text and its `data-price` attribute. -/
structure PriceNode where
  text : String
  dataPrice : Option String
deriving Repr, DecidableEq

/-- A product card, as the per-selector query results the source reads. -/
structure Card where
  /-- Text per `NAME_SELECTORS` entry; empty string when the selector
  matches nothing or its text is empty. -/
  nameTexts : List String
  /-- The `alt` attribute of `img[alt]` inside the card, if any. -/
  imgAlt : Option String
  /-- Text of the node matching `PRICE_FULL_SEL`, if the node exists. -/
  priceFull : Option String
  /-- Text of the node matching `PRICE_HALF_SEL`, if the node exists. -/
  priceHalf : Option String
  /-- Per `PRICE_FALLBACKS` entry, the matching node if any. -/
  priceFallbacks : List (Option PriceNode)
  /-- Text per `SIZE_SELECTORS` entry, as for `nameTexts`. -/
  sizeTexts : List String
  /-- The `href` of `a[href]` inside the card, if any. -/
  href : Option String
  /-- The `src` or `data-src` of an image inside the card, if any. -/
  imgSrc : Option String
deriving Repr, DecidableEq

/-- Source lines 121-126: first non-empty selector text, else empty. -/
def sel_text : List String → String
  | [] => ""
  | t :: rest => if t = "" then sel_text rest else t

/-- Python `float(string)` (sign, digits, optional fraction, optional
exponent, surrounding whitespace); `inf`/`nan` spellings are out of
scope of this model.  Used for the `data-price` attribute, where the
source wraps the call in `try`/`except`. -/
def pyFloatOfString (s : String) : Option Rat :=
  let l := pyStrip s.data
  let (isNeg, l1) : Bool × List Char :=
    match l with
    | '+' :: r => (false, r)
    | '-' :: r => (true, r)
    | r => (false, r)
  let (ip, l2) := digitSpan l1
  let (fp, l3) : List Char × List Char :=
    match l2 with
    | '.' :: r => digitSpan r
    | r => ([], r)
  if ip.isEmpty && fp.isEmpty then none
  else
    let mant : Rat :=
      ratAdd (digitsVal ip : Rat) (mkRat (digitsVal fp) (10 ^ fp.length))
    let mant := if isNeg then ratNeg mant else mant
    match l3 with
    | [] => some mant
    | 'e' :: r => pyFloatExp mant r
    | 'E' :: r => pyFloatExp mant r
    | _ => none
where
  /-- Exponent part `[+-]?\d+`, which must end the string. -/
  pyFloatExp (m : Rat) (l : List Char) : Option Rat :=
    let (eNeg, l1) : Bool × List Char :=
      match l with
      | '+' :: r => (false, r)
      | '-' :: r => (true, r)
      | r => (false, r)
    let (ed, l2) := digitSpan l1
    if ed.isEmpty || !l2.isEmpty then none
    else if eNeg then some (ratDiv m (mkRat (10 ^ digitsVal ed) 1))
    else some (ratMul m (mkRat (10 ^ digitsVal ed) 1))

/-- Source lines 141-149: iterate the price fallback selectors; for a
matching node take the leftmost decimal in its comma-normalised text,
else try to read its `data-price` attribute as a float. -/
def price_from_fallbacks : List (Option PriceNode) → Option Rat
  | [] => none
  | none :: rest => price_from_fallbacks rest
  | some n :: rest =>
    match searchNum (n.text.data.map (fun c => if c == ',' then '.' else c)) with
    | some v => some (numVal v)
    | none =>
      match n.dataPrice with
      | some dp =>
        match pyFloatOfString dp with
        | some v => some v
        | none => price_from_fallbacks rest
      | none => price_from_fallbacks rest

/-- Source lines 128-150: preferred split full+half form first (the
concatenated texts run through the pipeline of `parsePriceText`), then
the fallback selectors. -/
def get_price_from_card (c : Card) : Option Rat :=
  let split :=
    match c.priceFull with
    | some ft => parsePriceText (ft ++ c.priceHalf.getD "")
    | none => none
  match split with
  | some v => some v
  | none => price_from_fallbacks c.priceFallbacks

/-- Source lines 217-222: name from the name selectors, falling back to
the image alt text, then normalised. -/
def raw_name (c : Card) : String :=
  let n := sel_text c.nameTexts
  if n = "" then
    match c.imgAlt with
    | some a => a
    | none => ""
  else n

/-- Source lines 227: the size text, falling back to the name. -/
def size_source (c : Card) : String :=
  let sz := sel_text c.sizeTexts
  let name := normalize (raw_name c)
  if sz = "" then name else sz

/-- Source lines 230-235: absolute outbound link. -/
def resolve_link (c : Card) : Option String :=
  match c.href with
  | some h =>
    if h = "" then none
    else
      match h.data with
      | '/' :: _ => some ("https://www.checkers.co.za" ++ h)
      | _ => some h
  | none => none

/-- Source lines 217-248, one loop iteration: build the hit for a card,
or skip the card when the name is empty or no price resolves. -/
def card_to_hit (c : Card) : Option Hit :=
  let name := normalize (raw_name c)
  match get_price_from_card c with
  | none => none
  | some price_val =>
    if name = "" then none
    else
      let r := parse_size (size_source c)
      some { name := name
             price := price_val
             size_display := r.2.2
             ppu := ppu price_val r.1 r.2.1
             unit_type := r.2.1
             url := resolve_link c
             image := c.imgSrc }

/-- Source lines 215-249: the extraction loop over the first 24 deduped
cards; cards without resolvable name or price are skipped. -/
def extract_hits (cards : List Card) : List Hit :=
  (cards.take 24).filterMap card_to_hit

/-! ## Auxiliary definitions used by the statements below -/

/-- The ten decimal digit characters. -/
def DIGITS : List Char := ['0', '1', '2', '3', '4', '5', '6', '7', '8', '9']

/-- The four unit tokens of the size grammar, in source order. -/
def UNITS : List String := ["g", "kg", "ml", "l"]

/-- The fraction characters of a decimal literal: empty, or a period
followed by the fraction digits. -/
def fracChars : Option (List Char) → List Char
  | none => []
  | some fr => '.' :: fr

/-- The characters of a decimal literal: digits, optionally a period and
fraction digits. -/
def litChars (d : List Char) (f : Option (List Char)) : List Char :=
  d ++ fracChars f

/-- A well-formed decimal literal: nonempty digit run, and when a
fraction is present, a nonempty fraction digit run. -/
def LitOK (d : List Char) (f : Option (List Char)) : Prop :=
  d ≠ [] ∧ (∀ c ∈ d, c ∈ DIGITS) ∧
    ∀ fr, f = some fr → fr ≠ [] ∧ ∀ c ∈ fr, c ∈ DIGITS

/-- Strict lexicographic order on sort keys, as a proposition. -/
def KeyLT (a b : Rat × Rat) : Prop := a.1 < b.1 ∨ (a.1 = b.1 ∧ a.2 < b.2)

/-- Reflexive lexicographic order on sort keys, as a proposition. -/
def KeyLE (a b : Rat × Rat) : Prop := a.1 < b.1 ∨ (a.1 = b.1 ∧ a.2 ≤ b.2)

/-- A normalised character list: every whitespace character is a plain
space, no two adjacent characters are both whitespace, and neither end
is whitespace.  This is exactly the image of `normalizeL`. -/
def NormedL (l : List Char) : Prop :=
  (∀ c ∈ l, isSpace c = true → c = ' ') ∧
    List.Chain' (fun a b => isSpace a = false ∨ isSpace b = false) l ∧
    (∀ c ∈ l.head?, isSpace c = false) ∧
    (∀ c ∈ l.getLast?, isSpace c = false)

/-- A card whose price text resolves to zero and whose size text parses
to a zero quantity; the extractor still builds a listing from it. -/
def zeroCard : Card :=
  { nameTexts := ["Milk"], imgAlt := none, priceFull := some "R0",
    priceHalf := none, priceFallbacks := [], sizeTexts := ["0 g"],
    href := none, imgSrc := none }

/-- The listing the extractor builds from `zeroCard`. -/
def zeroHit : Hit :=
  { name := "Milk", price := 0, size_display := "0.0 g", ppu := 0,
    unit_type := "kg", url := none, image := none }

/-- A well-formed card for the end-to-end milk example of the spec. -/
def milkCard : Card :=
  { nameTexts := ["Full Cream Milk 1 L"], imgAlt := none,
    priceFull := some "R22", priceHalf := some ".99",
    priceFallbacks := [], sizeTexts := ["1 L"], href := none,
    imgSrc := none }

/-- The listing the extractor builds from `milkCard`. -/
def milkHit : Hit :=
  { name := "Full Cream Milk 1 L", price := mkRat 2299 100,
    size_display := "1.0 l", ppu := mkRat 2299 100, unit_type := "L",
    url := none, image := none }

/-- Two listings with equal similarity to the query "beef mince" and
different price per unit (the cheaper 1 kg pack must win). -/
def minceHit500 : Hit :=
  { name := "Beef Mince 500 g", price := mkRat 6499 100,
    size_display := "500.0 g", ppu := mkRat 12998 100, unit_type := "kg",
    url := none, image := none }

/-- The competing 1 kg listing; see `minceHit500`. -/
def minceHit1kg : Hit :=
  { name := "Beef Mince 1 kg", price := mkRat 11999 100,
    size_display := "1.0 kg", ppu := mkRat 11999 100, unit_type := "kg",
    url := none, image := none }

end Scrape

namespace Scrape

/-! ## Bridge lemmas: the divInt-based arithmetic equals the field
operations of `Rat`.  (The built-in operations are irreducible, so the
executable definitions above compute through `Rat.divInt`.) -/

theorem ratMul_eq_mul (a b : Rat) : ratMul a b = a * b := by
  rw [ratMul, Rat.divInt_eq_div]
  push_cast
  rw [← div_mul_div_comm, Rat.num_div_den, Rat.num_div_den]

theorem ratAdd_eq_add (a b : Rat) : ratAdd a b = a + b := by
  rw [ratAdd, Rat.divInt_eq_div]
  push_cast
  rw [mul_comm ((b.num : Rat)) ((a.den : Rat))]
  rw [← div_add_div _ _ (by exact_mod_cast a.den_ne_zero) (by exact_mod_cast b.den_ne_zero)]
  rw [Rat.num_div_den, Rat.num_div_den]

theorem ratNeg_eq_neg (a : Rat) : ratNeg a = -a := by
  rw [ratNeg, Rat.divInt_eq_div]
  push_cast
  rw [neg_div, Rat.num_div_den]

theorem ratDiv_eq_div (a b : Rat) : ratDiv a b = a / b := by
  by_cases hb : b = 0
  · subst hb
    simp [ratDiv, Rat.divInt_zero]
  · have hbn : (b.num : Rat) ≠ 0 := by
      exact_mod_cast Rat.num_ne_zero.mpr hb
    have had : (a.den : Rat) ≠ 0 := by exact_mod_cast a.den_ne_zero
    have hbd : (b.den : Rat) ≠ 0 := by exact_mod_cast b.den_ne_zero
    rw [ratDiv, Rat.divInt_eq_div]
    push_cast
    conv_rhs => rw [← Rat.num_div_den a, ← Rat.num_div_den b]
    field_simp

/-! ## Claim C4: the unit-price calculator -/

/-- Claim C4: `unitPrice(price, quantity, COUNT)` equals `price` for every
price and quantity; for MASS (`"kg"`) or VOLUME (`"L"`),
`unitPrice(price, quantity, kind)` equals `price / max(quantity, eps)`
for the fixed positive floor `eps = 1e-6`, and hence equals
`price / quantity` whenever `quantity > eps`. -/
theorem ppu_spec (p q : Rat) :
    ppu p q "each" = p ∧
    (∀ u, u = "kg" ∨ u = "L" → ppu p q u = p / max q eps) ∧
    (eps < q → ppu p q "kg" = p / q ∧ ppu p q "L" = p / q) := by
  refine ⟨by simp [ppu], ?_, ?_⟩
  · rintro u (rfl | rfl) <;> simp [ppu, ratDiv_eq_div]
  · intro h
    have hm : max q eps = q := max_eq_left (le_of_lt h)
    constructor <;> simp [ppu, ratDiv_eq_div, hm]

/-- Witness for claim C4 at price 10 and quantity 1, with every
hypothesis discharged on the concrete input. -/
theorem ppu_spec_witness :
    (("kg" : String) = "kg" ∨ ("kg" : String) = "L") ∧ eps < (1 : Rat) ∧
    ppu 10 1 "kg" = 10 / max 1 eps ∧ ppu 10 1 "kg" = 10 / 1 ∧
    ppu 10 1 "L" = 10 / 1 ∧ ppu 10 1 "each" = 10 :=
  ⟨Or.inl rfl, by decide,
    (ppu_spec 10 1).2.1 "kg" (Or.inl rfl),
    ((ppu_spec 10 1).2.2 (by decide)).1,
    ((ppu_spec 10 1).2.2 (by decide)).2,
    (ppu_spec 10 1).1⟩

/-! ## Claim C7: the match selector on the empty listing set -/

/-- Claim C7: `pickBest(ingredient, listings)` returns `None` if and only
if `listings` is empty; the empty set yields the `None` miss value (the
embedding is a total function, so no exception is possible). -/
theorem pick_best_none_iff (ing : String) (hits : List Hit) :
    pick_best ing hits = none ↔ hits = [] := by
  cases hits <;> simp [pick_best]

/-! ## Claim C8: totality and defaults of the core parsers -/

/-- Claim C8: the parsers are total functions on arbitrary strings:
`parse_size` falls back to the count default `(1, "each", "each")` on
empty or unparseable input, `parsePriceText` returns `none` when no
numeric pattern is found, and every `parse_size` result carries one of
the three unit kinds. -/
theorem parsers_total_spec :
    parse_size "" = (1, "each", "each") ∧
    parse_size "banana" = (1, "each", "each") ∧
    parsePriceText "" = none ∧
    parsePriceText "no digits here" = none ∧
    (∀ s : String, (parse_size s).2.1 = "kg" ∨ (parse_size s).2.1 = "L" ∨
      (parse_size s).2.1 = "each") := by
  refine ⟨by decide, by decide, by decide, by decide, ?_⟩
  intro s
  rcases hp : searchPack (normalizeL (toLowerL s.data)) with _ | ⟨n, each, u⟩
  · rcases hs : searchSingle (normalizeL (toLowerL s.data)) with _ | ⟨v, u⟩
    · simp [parse_size, hp, hs]
    · simp only [parse_size, hp, hs]
      by_cases hu : (u = "ml" || u = "l") = true <;> simp [unitOut, hu]
  · simp only [parse_size, hp]
    by_cases hu : (u = "ml" || u = "l") = true <;> simp [unitOut, hu]

/-! ## Claim C1: the price parser on currency-formatted inputs -/

/-- Helper for stating prices: `8499 / 100` as a reducible rational. -/
theorem divInt_8499_100 : ((8499 : Rat) / 100) = Rat.divInt 8499 100 := by
  rw [Rat.divInt_eq_div]
  norm_num

/-- Claim C1 counterexample: on the caret-cents input `"84^99"` the price
pipeline of the source extracts `84`, not `84.99`: the code performs no
caret-to-period rewrite, so numeric extraction stops at the caret. -/
theorem parsePrice_caret_counterexample :
    parsePriceText "84^99" = some 84 ∧
    parsePriceText "84^99" ≠ some ((8499 : Rat) / 100) := by
  rw [divInt_8499_100]
  exact ⟨by decide, by decide⟩

/-- Claim C1 amended: `parsePrice` yields exactly `84.99` for the inputs
`"R84.99"`, `"R 84,99"` and the concatenated split pair `"R84" + ".99"`;
the caret form `"84^99"` instead yields `84`, because the literal caret
is not rewritten to a decimal point. -/
theorem parsePrice_currency_forms :
    parsePriceText "R84.99" = some ((8499 : Rat) / 100) ∧
    parsePriceText "R 84,99" = some ((8499 : Rat) / 100) ∧
    parsePriceText ("R84" ++ ".99") = some ((8499 : Rat) / 100) ∧
    parsePriceText "84^99" = some 84 := by
  rw [divInt_8499_100]
  exact ⟨by decide, by decide, by decide, by decide⟩

/-! ## Claim C6: the similarity metric -/

/-- Claim C6: for every query `a` and title `b`, `sim_words a b` equals
`|tokens(a) ∩ tokens(b)| / |tokens(a)|` over distinct lowercase tokens,
is 0 when `tokens(a)` is empty, depends only on the two token sets (so
it is independent of token order and multiplicity), is monotone in the
title's token set (extra title tokens are never penalised), and always
lies in the interval [0, 1]. -/
theorem sim_words_spec (a b : String) :
    (tokenSet a = ∅ → sim_words a b = 0) ∧
    (tokenSet a ≠ ∅ → sim_words a b =
      ((tokenSet a ∩ tokenSet b).card : Rat) / (((tokenSet a).card : Rat))) ∧
    (∀ a2 b2, tokenSet a = tokenSet a2 → tokenSet b = tokenSet b2 →
      sim_words a b = sim_words a2 b2) ∧
    (∀ b2, tokenSet b ⊆ tokenSet b2 → sim_words a b ≤ sim_words a b2) ∧
    0 ≤ sim_words a b ∧ sim_words a b ≤ 1 := by
  have hcard : ∀ x y : String, (tokenSet x ∩ tokenSet y).card ≤ (tokenSet x).card :=
    fun x y => Finset.card_le_card Finset.inter_subset_left
  refine ⟨fun h => by simp [sim_words, h], fun h => by simp [sim_words, h, ratDiv_eq_div],
    ?_, ?_, ?_, ?_⟩
  · intro a2 b2 ha hb
    simp [sim_words, ha, hb]
  · intro b2 hsub
    by_cases h : tokenSet a = ∅
    · simp [sim_words, h]
    · have hpos : (0 : Rat) < ((tokenSet a).card : Rat) := by
        have := Finset.card_pos.mpr (Finset.nonempty_iff_ne_empty.mpr h)
        exact_mod_cast this
      simp only [sim_words, h, if_false, ratDiv_eq_div]
      rw [div_le_div_iff_of_pos_right hpos]
      have : (tokenSet a ∩ tokenSet b).card ≤ (tokenSet a ∩ tokenSet b2).card :=
        Finset.card_le_card (Finset.inter_subset_inter (le_refl _) hsub)
      exact_mod_cast this
  · by_cases h : tokenSet a = ∅
    · simp [sim_words, h]
    · simp only [sim_words, h, if_false, ratDiv_eq_div]
      positivity
  · by_cases h : tokenSet a = ∅
    · simp [sim_words, h]
    · have hpos : (0 : Rat) < ((tokenSet a).card : Rat) := by
        have := Finset.card_pos.mpr (Finset.nonempty_iff_ne_empty.mpr h)
        exact_mod_cast this
      simp only [sim_words, h, if_false, ratDiv_eq_div]
      rw [div_le_one hpos]
      exact_mod_cast hcard a b

/-- Witness for claim C6 on the concrete spec strings, with the
non-empty-token-set hypothesis discharged on the concrete input. -/
theorem sim_words_spec_witness :
    tokenSet "cheddar cheese" ≠ ∅ ∧
    sim_words "cheddar cheese" "Cheddar Cheese Block 400g" =
      ((tokenSet "cheddar cheese" ∩ tokenSet "Cheddar Cheese Block 400g").card : Rat) /
        (((tokenSet "cheddar cheese").card : Rat)) :=
  ⟨by decide,
    (sim_words_spec "cheddar cheese" "Cheddar Cheese Block 400g").2.1 (by decide)⟩

/-! ## Claim C3: the match selector ranking -/

theorem keyLt_iff (a b : Rat × Rat) : keyLt a b = true ↔ KeyLT a b := by
  simp [keyLt, KeyLT]

theorem keyLE_refl (a : Rat × Rat) : KeyLE a a := Or.inr ⟨rfl, le_refl _⟩

theorem keyLE_of_keyLT {a b : Rat × Rat} (h : KeyLT a b) : KeyLE a b := by
  rcases h with h | ⟨h1, h2⟩
  · exact Or.inl h
  · exact Or.inr ⟨h1, le_of_lt h2⟩

theorem keyLE_of_not_keyLT {a b : Rat × Rat} (h : ¬ KeyLT a b) : KeyLE b a := by
  rw [KeyLT] at h
  push_neg at h
  rcases lt_trichotomy a.1 b.1 with h1 | h1 | h1
  · exact absurd h1 (not_lt.mpr h.1)
  · exact Or.inr ⟨h1.symm, h.2 h1⟩
  · exact Or.inl h1

theorem keyLT_of_keyLE_of_keyLT {a b c : Rat × Rat}
    (h1 : KeyLE a b) (h2 : KeyLT b c) : KeyLT a c := by
  rcases h1 with h1 | ⟨h1e, h1l⟩ <;> rcases h2 with h2 | ⟨h2e, h2l⟩
  · exact Or.inl (lt_trans h1 h2)
  · exact Or.inl (h2e ▸ h1)
  · exact Or.inl (h1e ▸ h2)
  · exact Or.inr ⟨h1e.trans h2e, lt_of_le_of_lt h1l h2l⟩

theorem keyLT_of_keyLT_of_keyLE {a b c : Rat × Rat}
    (h1 : KeyLT a b) (h2 : KeyLE b c) : KeyLT a c := by
  rcases h1 with h1 | ⟨h1e, h1l⟩ <;> rcases h2 with h2 | ⟨h2e, h2l⟩
  · exact Or.inl (lt_trans h1 h2)
  · exact Or.inl (h2e ▸ h1)
  · exact Or.inl (h1e ▸ h2)
  · exact Or.inr ⟨h1e.trans h2e, lt_of_lt_of_le h1l h2l⟩

theorem keyLE_trans {a b c : Rat × Rat}
    (h1 : KeyLE a b) (h2 : KeyLE b c) : KeyLE a c := by
  rcases h1 with h1 | ⟨h1e, h1l⟩ <;> rcases h2 with h2 | ⟨h2e, h2l⟩
  · exact Or.inl (lt_trans h1 h2)
  · exact Or.inl (h2e ▸ h1)
  · exact Or.inl (h1e ▸ h2)
  · exact Or.inr ⟨h1e.trans h2e, le_trans h1l h2l⟩

/-- The fold of `best_of` selects the leftmost element whose key is
minimal: it occurs in the list, its key is at most every key in the
list, and every element strictly before its occurrence has a strictly
larger key.  This is exactly the element that a stable ascending sort
places first. -/
theorem best_of_split (ing : String) :
    ∀ (t : List Hit) (h : Hit),
      ∃ pre post, h :: t = pre ++ best_of ing h t :: post ∧
        (∀ x ∈ h :: t, KeyLE (simKey ing (best_of ing h t)) (simKey ing x)) ∧
        (∀ y ∈ pre, KeyLT (simKey ing (best_of ing h t)) (simKey ing y)) := by
  intro t
  induction t with
  | nil =>
    intro h
    exact ⟨[], [], rfl, by
      intro x hx
      simp only [List.mem_singleton] at hx
      subst hx
      exact keyLE_refl _, by simp⟩
  | cons x t ih =>
    intro h
    have hstep : best_of ing h (x :: t) =
        best_of ing (if keyLt (simKey ing x) (simKey ing h) then x else h) t := by
      simp [best_of]
    by_cases hxh : keyLt (simKey ing x) (simKey ing h) = true
    · rw [hstep, if_pos hxh]
      have hxhP : KeyLT (simKey ing x) (simKey ing h) := (keyLt_iff _ _).mp hxh
      obtain ⟨pre, post, heq, hle, hlt⟩ := ih x
      have hrx : KeyLE (simKey ing (best_of ing x t)) (simKey ing x) :=
        hle x (List.mem_cons_self x t)
      have hrh : KeyLT (simKey ing (best_of ing x t)) (simKey ing h) :=
        keyLT_of_keyLE_of_keyLT hrx hxhP
      refine ⟨h :: pre, post, by rw [List.cons_append, ← heq], ?_, ?_⟩
      · intro z hz
        rcases List.mem_cons.mp hz with rfl | hz
        · exact keyLE_of_keyLT hrh
        · exact hle z hz
      · intro y hy
        rcases List.mem_cons.mp hy with rfl | hy
        · exact hrh
        · exact hlt y hy
    · rw [hstep, if_neg hxh]
      have hhx : KeyLE (simKey ing h) (simKey ing x) :=
        keyLE_of_not_keyLT (fun hc => hxh ((keyLt_iff _ _).mpr hc))
      obtain ⟨pre, post, heq, hle, hlt⟩ := ih h
      rcases pre with _ | ⟨p, pre'⟩
      · rw [List.nil_append] at heq
        injection heq with e1 e2
        refine ⟨[], x :: t, by rw [List.nil_append, ← e1], ?_, by simp⟩
        intro z hz
        rcases List.mem_cons.mp hz with rfl | hz
        · exact hle z (List.mem_cons_self _ _)
        · rcases List.mem_cons.mp hz with rfl | hz
          · rw [← e1]
            exact hhx
          · exact hle z (List.mem_cons_of_mem _ hz)
      · rw [List.cons_append] at heq
        injection heq with e1 e2
        subst e1
        have hrh : KeyLT (simKey ing (best_of ing h t)) (simKey ing h) :=
          hlt h (List.mem_cons_self _ _)
        refine ⟨h :: x :: pre', post, by rw [List.cons_append, List.cons_append, ← e2], ?_, ?_⟩
        · intro z hz
          rcases List.mem_cons.mp hz with rfl | hz
          · exact keyLE_of_keyLT hrh
          · rcases List.mem_cons.mp hz with rfl | hz
            · exact keyLE_of_keyLT (keyLT_of_keyLT_of_keyLE hrh hhx)
            · exact hle z (List.mem_cons_of_mem _ hz)
        · intro y hy
          rcases List.mem_cons.mp hy with rfl | hy
          · exact hrh
          · rcases List.mem_cons.mp hy with rfl | hy
            · exact keyLT_of_keyLT_of_keyLE hrh hhx
            · exact hlt y (List.mem_cons_of_mem _ hy)

/-- Claim C3: for every ingredient query and non-empty listing list,
`pick_best` returns a listing with maximal token-overlap similarity to
the query; among listings of equal similarity it returns one of minimal
price per unit; and among listings tied on both keys it returns the
earliest in input order (the selection a stable sort makes), so the
choice is deterministic given identical input order. -/
theorem pick_best_ranking (ing : String) (hits : List Hit) (hne : hits ≠ []) :
    ∃ best pre post, pick_best ing hits = some best ∧
      hits = pre ++ best :: post ∧
      (∀ x ∈ hits, sim_words ing x.name ≤ sim_words ing best.name) ∧
      (∀ x ∈ hits, sim_words ing x.name = sim_words ing best.name →
        best.ppu ≤ x.ppu) ∧
      (∀ y ∈ pre, ¬ (sim_words ing y.name = sim_words ing best.name ∧
        y.ppu = best.ppu)) := by
  match hits with
  | [] => exact absurd rfl hne
  | h :: t =>
    obtain ⟨pre, post, heq, hle, hlt⟩ := best_of_split ing t h
    have hkey1 : ∀ z : Hit, (simKey ing z).1 = -(sim_words ing z.name) := by
      intro z
      simp [simKey, ratNeg_eq_neg]
    have hkey2 : ∀ z : Hit, (simKey ing z).2 = z.ppu := fun z => rfl
    refine ⟨best_of ing h t, pre, post, rfl, heq, ?_, ?_, ?_⟩
    · intro x hx
      rcases hle x hx with hl | ⟨he, _⟩
      · rw [hkey1, hkey1] at hl
        exact le_of_lt (neg_lt_neg_iff.mp hl)
      · rw [hkey1, hkey1] at he
        exact le_of_eq (neg_inj.mp he).symm
    · intro x hx hsim
      rcases hle x hx with hl | ⟨_, hle2⟩
      · rw [hkey1, hkey1] at hl
        exact absurd hsim (ne_of_lt (neg_lt_neg_iff.mp hl))
      · rw [hkey2, hkey2] at hle2
        exact hle2
    · intro y hy hcon
      rcases hlt y hy with hl | ⟨_, hlt2⟩
      · rw [hkey1, hkey1] at hl
        exact absurd hcon.1 (ne_of_lt (neg_lt_neg_iff.mp hl))
      · rw [hkey2, hkey2] at hlt2
        exact absurd hcon.2.symm (ne_of_lt hlt2)

/-- Witness for claim C3 on the beef-mince scenario of the spec: two
listings of equal similarity, where the cheaper-per-unit 1 kg listing
must win; the non-emptiness hypothesis is discharged concretely. -/
theorem pick_best_ranking_witness :
    ([minceHit500, minceHit1kg] ≠ []) ∧
    (∃ best pre post,
      pick_best "beef mince" [minceHit500, minceHit1kg] = some best ∧
      [minceHit500, minceHit1kg] = pre ++ best :: post ∧
      (∀ x ∈ [minceHit500, minceHit1kg],
        sim_words "beef mince" x.name ≤ sim_words "beef mince" best.name) ∧
      (∀ x ∈ [minceHit500, minceHit1kg],
        sim_words "beef mince" x.name = sim_words "beef mince" best.name →
        best.ppu ≤ x.ppu) ∧
      (∀ y ∈ pre, ¬ (sim_words "beef mince" y.name = sim_words "beef mince" best.name ∧
        y.ppu = best.ppu))) :=
  ⟨by simp, pick_best_ranking "beef mince" [minceHit500, minceHit1kg] (by simp)⟩

/-! ## Claim C5: invariants of constructed listings -/

/-- Claim C5 counterexample: a card whose price span text is `"R0"` and
whose size text is `"0 g"` still passes the extractor guard (the guard
only rejects a `None` price and an empty name), so a listing with
`price = 0` is constructed, refuting the invariant `price > 0` (its
quantity also parses to 0, refuting `quantity > 0`). -/
theorem listing_invariant_counterexample :
    zeroHit ∈ extract_hits [zeroCard] ∧ ¬ (0 < zeroHit.price) := by
  exact ⟨by decide, by decide⟩

/-- Claim C5 amended: every listing constructed by the card extractor
has a non-empty name, a price that resolved to an actual value (never
`None`), and a price-per-unit that is always defined and computed by
`ppu` from its price and the parsed quantity and unit of its size
source; `price > 0` and `quantity > 0` are not guaranteed (see the
counterexample). -/
theorem extract_hits_invariant (cards : List Card) :
    ∀ h ∈ extract_hits cards, h.name ≠ "" ∧
      ∃ c ∈ cards, get_price_from_card c = some h.price ∧
        h.unit_type = (parse_size (size_source c)).2.1 ∧
        h.size_display = (parse_size (size_source c)).2.2 ∧
        h.ppu = ppu h.price (parse_size (size_source c)).1 h.unit_type := by
  intro h hh
  rw [extract_hits, List.mem_filterMap] at hh
  obtain ⟨c, hc, hch⟩ := hh
  have hc2 : c ∈ cards := List.take_subset _ _ hc
  simp only [card_to_hit] at hch
  split at hch
  · exact Option.noConfusion hch
  · rename_i pv hp
    split at hch
    · exact Option.noConfusion hch
    · rename_i hn
      injection hch with he
      subst he
      exact ⟨hn, c, hc2, hp, rfl, rfl, rfl⟩

/-- Witness for claim C5 on the milk example card, with the membership
hypothesis discharged concretely. -/
theorem extract_hits_invariant_witness :
    milkHit ∈ extract_hits [milkCard] ∧
    (milkHit.name ≠ "" ∧
      ∃ c ∈ [milkCard], get_price_from_card c = some milkHit.price ∧
        milkHit.unit_type = (parse_size (size_source c)).2.1 ∧
        milkHit.size_display = (parse_size (size_source c)).2.2 ∧
        milkHit.ppu = ppu milkHit.price (parse_size (size_source c)).1
          milkHit.unit_type) :=
  ⟨by decide, extract_hits_invariant [milkCard] milkHit (by decide)⟩

/-! ## Claim C10: idempotence of the text normalizer -/

/-- Whitespace characters in the output of the collapser are plain spaces. -/
theorem collapseWSAux_spaces :
    ∀ (l : List Char) (b : Bool), ∀ c ∈ collapseWSAux b l, isSpace c = true → c = ' ' := by
  intro l
  induction l with
  | nil => intro b c hc; cases hc
  | cons x xs ih =>
    intro b c hc hsp
    by_cases hx : isSpace x = true
    · rw [collapseWSAux, if_pos hx] at hc
      cases b with
      | true => exact ih true c hc hsp
      | false =>
        rcases List.mem_cons.mp hc with rfl | hc
        · rfl
        · exact ih true c hc hsp
    · rw [collapseWSAux, if_neg hx] at hc
      rcases List.mem_cons.mp hc with rfl | hc
      · exact absurd hsp hx
      · exact ih false c hc hsp

/-- In the space-swallowing state the collapser never emits a leading
whitespace character. -/
theorem collapseWSAux_head_true :
    ∀ l : List Char, ∀ c ∈ (collapseWSAux true l).head?, isSpace c = false := by
  intro l
  induction l with
  | nil => intro c hc; cases hc
  | cons x xs ih =>
    intro c hc
    by_cases hx : isSpace x = true
    · rw [collapseWSAux, if_pos hx] at hc
      exact ih c hc
    · rw [collapseWSAux, if_neg hx] at hc
      rw [List.head?_cons, Option.mem_some_iff] at hc
      subst hc
      exact eq_false_of_ne_true hx

/-- The collapser never emits two adjacent whitespace characters. -/
theorem collapseWSAux_chain :
    ∀ (l : List Char) (b : Bool),
      List.Chain' (fun a c => isSpace a = false ∨ isSpace c = false)
        (collapseWSAux b l) := by
  intro l
  induction l with
  | nil => intro b; exact List.chain'_nil
  | cons x xs ih =>
    intro b
    by_cases hx : isSpace x = true
    · rw [collapseWSAux, if_pos hx]
      cases b with
      | true => exact ih true
      | false =>
        exact List.chain'_cons'.mpr
          ⟨fun y hy => Or.inr (collapseWSAux_head_true xs y hy), ih true⟩
    · rw [collapseWSAux, if_neg hx]
      rw [List.chain'_cons']
      exact ⟨fun y _ => Or.inl (eq_false_of_ne_true hx), ih false⟩

/-- On an already-normalised list the collapser is the identity. -/
theorem collapseWSAux_eq_self :
    ∀ (l : List Char) (b : Bool),
      (∀ c ∈ l, isSpace c = true → c = ' ') →
      List.Chain' (fun a c => isSpace a = false ∨ isSpace c = false) l →
      (b = true → ∀ c ∈ l.head?, isSpace c = false) →
      collapseWSAux b l = l := by
  intro l
  induction l with
  | nil => intro b _ _ _; rfl
  | cons x xs ih =>
    intro b h1 h2 h3
    by_cases hx : isSpace x = true
    · cases b with
      | true =>
        exact absurd hx (by simpa using h3 rfl x (by simp))
      | false =>
        rw [collapseWSAux, if_pos hx]
        have hxsp : x = ' ' := h1 x (List.mem_cons_self _ _) hx
        have hhead : ∀ c ∈ xs.head?, isSpace c = false := by
          intro c hc
          rcases (List.chain'_cons'.mp h2).1 c hc with h | h
          · exact absurd hx (by simp [h])
          · exact h
        rw [ih true (fun c hc => h1 c (List.mem_cons_of_mem _ hc))
          (List.chain'_cons'.mp h2).2 (fun _ => hhead), hxsp]
        rfl
    · rw [collapseWSAux, if_neg hx]
      rw [ih false (fun c hc => h1 c (List.mem_cons_of_mem _ hc))
        (List.chain'_cons'.mp h2).2 (by intro h; cases h)]

/-- Dropping while a predicate fails at the head changes nothing. -/
theorem dropWhile_eq_self_of_head {p : Char → Bool} :
    ∀ {l : List Char}, (∀ c ∈ l.head?, p c = false) → l.dropWhile p = l := by
  intro l h
  cases l with
  | nil => rfl
  | cons x xs =>
    rw [List.dropWhile_cons, if_neg]
    rw [h x (by simp)]
    simp

/-- The head of a `dropWhile` result falsifies the predicate. -/
theorem head_dropWhile_false (p : Char → Bool) :
    ∀ l : List Char, ∀ c ∈ (l.dropWhile p).head?, p c = false := by
  intro l
  induction l with
  | nil => intro c hc; cases hc
  | cons x xs ih =>
    intro c hc
    rw [List.dropWhile_cons] at hc
    by_cases hx : p x = true
    · rw [if_pos hx] at hc
      exact ih c hc
    · rw [if_neg hx] at hc
      rw [List.head?_cons, Option.mem_some_iff] at hc
      subst hc
      exact eq_false_of_ne_true hx

/-- The right trim is a prefix of its argument. -/
theorem rtrimWS_prefix_self (l : List Char) : rtrimWS l <+: l := by
  rw [rtrimWS]
  rw [← List.reverse_reverse l]
  rw [List.reverse_suffix.symm]
  rw [List.reverse_reverse, List.reverse_reverse]
  exact List.dropWhile_suffix isSpace

/-- The last element of a right-trimmed list is not whitespace. -/
theorem rtrimWS_getLast (l : List Char) :
    ∀ c ∈ (rtrimWS l).getLast?, isSpace c = false := by
  intro c hc
  rw [rtrimWS, List.getLast?_reverse] at hc
  exact head_dropWhile_false isSpace l.reverse c hc

/-- A nonempty prefix has the same head. -/
theorem isPrefix_head?_eq {x y : List Char} (h : x <+: y) (hx : x ≠ []) :
    x.head? = y.head? := by
  obtain ⟨t, rfl⟩ := h
  cases x with
  | nil => exact absurd rfl hx
  | cons a xs => rfl

/-- `pyStrip` yields an infix of its argument. -/
theorem pyStrip_within (l : List Char) : pyStrip l <:+: l :=
  (rtrimWS_prefix_self (ltrimWS l)).isInfix.trans (List.dropWhile_suffix isSpace).isInfix

/-- The normalizer output is normalised. -/
theorem normalizeL_normed (l : List Char) : NormedL (normalizeL l) := by
  have hinf : pyStrip (collapseWS l) <:+: collapseWS l := pyStrip_within _
  refine ⟨?_, ?_, ?_, ?_⟩
  · intro c hc hsp
    exact collapseWSAux_spaces l false c (hinf.subset hc) hsp
  · exact List.Chain'.infix (collapseWSAux_chain l false) hinf
  · intro c hc
    by_cases hn : rtrimWS (ltrimWS (collapseWS l)) = []
    · rw [normalizeL, pyStrip, hn] at hc
      cases hc
    · rw [normalizeL, pyStrip, isPrefix_head?_eq (rtrimWS_prefix_self _) hn] at hc
      exact head_dropWhile_false isSpace (collapseWS l) c hc
  · intro c hc
    exact rtrimWS_getLast _ c hc

/-- On an already-normalised list the normalizer is the identity. -/
theorem normalizeL_eq_self {l : List Char} (h : NormedL l) : normalizeL l = l := by
  obtain ⟨h1, h2, h3, h4⟩ := h
  rw [normalizeL, collapseWS, collapseWSAux_eq_self l false h1 h2 (by intro hb; cases hb)]
  rw [pyStrip, ltrimWS, dropWhile_eq_self_of_head h3, rtrimWS]
  rw [dropWhile_eq_self_of_head (by rwa [List.head?_reverse]), List.reverse_reverse]

/-- Claim C10: `normalize` is idempotent: normalising an already
normalised string changes nothing. -/
theorem normalize_idempotent (s : String) : normalize (normalize s) = normalize s := by
  show String.mk (normalizeL (String.mk (normalizeL s.data)).data) = _
  exact congrArg String.mk (normalizeL_eq_self (normalizeL_normed s.data))

/-! ## Claim C2: the size grammar.

The lemmas below execute the regex search symbolically on every string
of the pack form `<n> x <q> <unit>` and the single form `<q> <unit>`,
built from arbitrary well-formed decimal literals and any of the four
unit tokens. -/

theorem digit_isDigit {c : Char} (h : c ∈ DIGITS) : c.isDigit = true := by
  fin_cases h <;> decide

theorem digit_not_space {c : Char} (h : c ∈ DIGITS) : isSpace c = false := by
  fin_cases h <;> decide

theorem digit_toLower {c : Char} (h : c ∈ DIGITS) : c.toLower = c := by
  fin_cases h <;> decide

theorem digit_ne_x {c : Char} (h : c ∈ DIGITS) : c ≠ 'x' ∧ c ≠ '×' := by
  fin_cases h <;> exact ⟨by decide, by decide⟩

theorem digitSpan_append {d r : List Char} (hd : ∀ c ∈ d, c.isDigit = true)
    (hr : ∀ c ∈ r.head?, c.isDigit = false) : digitSpan (d ++ r) = (d, r) := by
  induction d with
  | nil =>
    rw [List.nil_append, digitSpan]
    cases r with
    | nil => rfl
    | cons a as =>
      have ha : a.isDigit = false := hr a (by simp)
      rw [List.takeWhile_cons, List.dropWhile_cons, ha]
      simp
  | cons x xs ih =>
    have hx : x.isDigit = true := hd x (List.mem_cons_self _ _)
    have hrec := ih (fun c hc => hd c (List.mem_cons_of_mem _ hc))
    rw [digitSpan] at hrec ⊢
    rw [List.cons_append, List.takeWhile_cons, List.dropWhile_cons, hx]
    simp only [if_true, Prod.mk.injEq] at hrec ⊢
    exact ⟨by rw [hrec.1], hrec.2⟩

/-- The number matcher consumes exactly a well-formed literal when the
remainder neither starts with a digit nor with a period. -/
theorem matchNum_lit {d : List Char} {f : Option (List Char)} {r : List Char}
    (hok : LitOK d f)
    (hr : ∀ c ∈ r.head?, c.isDigit = false ∧ c ≠ '.') :
    matchNum (litChars d f ++ r) = some (⟨d, f⟩, r) := by
  obtain ⟨hne, hd, hf⟩ := hok
  have hdEmpty : d.isEmpty = false := by
    cases d with
    | nil => exact absurd rfl hne
    | cons a as => rfl
  cases f with
  | none =>
    have hds : digitSpan (d ++ r) = (d, r) :=
      digitSpan_append (fun c hc => digit_isDigit (hd c hc))
        (fun c hc => (hr c hc).1)
    have hrdot : (r.head? = some '.') = False := by
      simp only [eq_iff_iff, iff_false]
      intro hh
      exact absurd rfl (hr '.' (by rw [hh]; simp)).2
    simp only [litChars, fracChars, List.append_nil, matchNum, hds, hdEmpty, hrdot]
    simp
  | some fr =>
    obtain ⟨hfne, hfd⟩ := hf fr rfl
    have hds : digitSpan (d ++ ('.' :: (fr ++ r))) = (d, '.' :: (fr ++ r)) :=
      digitSpan_append (fun c hc => digit_isDigit (hd c hc))
        (by intro c hc; simp at hc; subst hc; decide)
    have hds2 : digitSpan (fr ++ r) = (fr, r) :=
      digitSpan_append (fun c hc => digit_isDigit (hfd c hc))
        (fun c hc => (hr c hc).1)
    have hfEmpty : fr.isEmpty = false := by
      cases fr with
      | nil => exact absurd rfl hfne
      | cons a as => rfl
    have hassoc : litChars d (some fr) ++ r = d ++ ('.' :: (fr ++ r)) := by
      simp [litChars, fracChars]
    rw [hassoc]
    simp only [matchNum, hds, hdEmpty, List.head?_cons, List.tail_cons, hds2, hfEmpty]
    simp

/-- The remainder returned by the number matcher is a suffix of the
input (needed to locate the separator character). -/
theorem matchNum_rest_suffix {l r : List Char} {n : NumLit}
    (h : matchNum l = some (n, r)) : r <:+ l := by
  have hsuf : List.dropWhile Char.isDigit l <:+ l := List.dropWhile_suffix _
  simp only [matchNum, digitSpan] at h
  by_cases he : (l.takeWhile Char.isDigit).isEmpty = true
  · simp [he] at h
  · simp only [he, Bool.false_eq_true, if_false] at h
    by_cases hdot : (l.dropWhile Char.isDigit).head? = some '.'
    · rw [if_pos hdot] at h
      by_cases hf : ((l.dropWhile Char.isDigit).tail.takeWhile Char.isDigit).isEmpty = true
      · simp only [hf, if_true, Option.some.injEq, Prod.mk.injEq] at h
        rw [← h.2]
        exact hsuf
      · simp only [hf, Bool.false_eq_true, if_false, Option.some.injEq, Prod.mk.injEq] at h
        rw [← h.2]
        exact ((List.dropWhile_suffix _).trans (List.tail_suffix _)).trans hsuf
    · rw [if_neg hdot] at h
      simp only [Option.some.injEq, Prod.mk.injEq] at h
      rw [← h.2]
      exact hsuf

theorem unit_head_nonspace {u : String} (hu : u ∈ UNITS) :
    ∀ c ∈ u.data.head?, isSpace c = false := by
  fin_cases hu <;> decide

theorem unit_match {u : String} (hu : u ∈ UNITS) : matchUnit u.data = some (u, []) := by
  fin_cases hu <;> decide

theorem unit_nonspace {u : String} (hu : u ∈ UNITS) :
    ∀ c ∈ u.data, isSpace c = false := by
  fin_cases hu <;> decide

theorem unit_ne_x {u : String} (hu : u ∈ UNITS) :
    ∀ c ∈ u.data, c ≠ 'x' ∧ c ≠ '×' := by
  fin_cases hu <;> decide

theorem unit_toLower {u : String} (hu : u ∈ UNITS) :
    ∀ c ∈ u.data, c.toLower = c := by
  fin_cases hu <;> decide

theorem unit_ne_nil {u : String} (hu : u ∈ UNITS) : u.data ≠ [] := by
  fin_cases hu <;> decide

theorem unit_getLast_nonspace {u : String} (hu : u ∈ UNITS) :
    ∀ c ∈ u.data.getLast?, isSpace c = false := by
  fin_cases hu <;> decide

theorem litChars_mem {d : List Char} {f : Option (List Char)} {c : Char}
    (hok : LitOK d f) (hc : c ∈ litChars d f) : c ∈ DIGITS ∨ c = '.' := by
  obtain ⟨_, hd, hf⟩ := hok
  rcases List.mem_append.mp hc with h | h
  · exact Or.inl (hd c h)
  · cases hfv : f with
    | none =>
      rw [hfv] at h
      cases h
    | some fr =>
      rw [hfv] at h
      rcases List.mem_cons.mp h with rfl | h
      · exact Or.inr rfl
      · exact Or.inl ((hf fr hfv).2 c h)

theorem litChars_nonspace {d : List Char} {f : Option (List Char)} {c : Char}
    (hok : LitOK d f) (hc : c ∈ litChars d f) : isSpace c = false := by
  rcases litChars_mem hok hc with h | rfl
  · exact digit_not_space h
  · decide

theorem litChars_ne_x {d : List Char} {f : Option (List Char)} {c : Char}
    (hok : LitOK d f) (hc : c ∈ litChars d f) : c ≠ 'x' ∧ c ≠ '×' := by
  rcases litChars_mem hok hc with h | rfl
  · exact digit_ne_x h
  · exact ⟨by decide, by decide⟩

theorem litChars_toLower {d : List Char} {f : Option (List Char)} {c : Char}
    (hok : LitOK d f) (hc : c ∈ litChars d f) : c.toLower = c := by
  rcases litChars_mem hok hc with h | rfl
  · exact digit_toLower h
  · decide

theorem lit_append_head {d : List Char} {f : Option (List Char)} {r : List Char}
    (h : LitOK d f) : ∀ c ∈ (litChars d f ++ r).head?, isSpace c = false := by
  obtain ⟨hne, hd, _⟩ := h
  cases d with
  | nil => exact absurd rfl hne
  | cons a as =>
    intro c hc
    simp [litChars] at hc
    subst hc
    exact digit_not_space (hd _ (List.mem_cons_self _ _))

theorem lit_append_cons {d : List Char} {f : Option (List Char)} {r : List Char}
    (hne : d ≠ []) : ∃ a as, litChars d f ++ r = a :: as := by
  cases d with
  | nil => exact absurd rfl hne
  | cons a as => exact ⟨a, as ++ fracChars f ++ r, by simp [litChars]⟩

theorem dropWhile_space_lit {d : List Char} {f : Option (List Char)} {r : List Char}
    (h : LitOK d f) :
    List.dropWhile isSpace (' ' :: (litChars d f ++ r)) = litChars d f ++ r := by
  rw [List.dropWhile_cons, if_pos (by decide)]
  exact dropWhile_eq_self_of_head (lit_append_head h)

/-- The pack pattern matches at the start of a full pack-form string. -/
theorem matchPackAt_lit {d1 d2 : List Char} {f1 f2 : Option (List Char)} {u : String}
    (h1 : LitOK d1 f1) (h2 : LitOK d2 f2) (hu : u ∈ UNITS) :
    matchPackAt (litChars d1 f1 ++ ' ' :: 'x' :: ' ' :: (litChars d2 f2 ++ ' ' :: u.data))
      = some (⟨d1, f1⟩, ⟨d2, f2⟩, u) := by
  have hm1 : matchNum (litChars d1 f1 ++ (' ' :: 'x' :: ' ' :: (litChars d2 f2 ++ ' ' :: u.data)))
      = some (⟨d1, f1⟩, ' ' :: 'x' :: ' ' :: (litChars d2 f2 ++ ' ' :: u.data)) :=
    matchNum_lit h1 (by intro c hc; simp at hc; subst hc; exact ⟨by decide, by decide⟩)
  have hm2 : matchNum (litChars d2 f2 ++ (' ' :: u.data)) = some (⟨d2, f2⟩, ' ' :: u.data) :=
    matchNum_lit h2 (by intro c hc; simp at hc; subst hc; exact ⟨by decide, by decide⟩)
  have hd1 : List.dropWhile isSpace (' ' :: 'x' :: ' ' :: (litChars d2 f2 ++ ' ' :: u.data))
      = 'x' :: ' ' :: (litChars d2 f2 ++ ' ' :: u.data) := by
    rw [List.dropWhile_cons, if_pos (by decide), List.dropWhile_cons, if_neg (by decide)]
  have hd2 := dropWhile_space_lit (r := ' ' :: u.data) h2
  have hd3 : List.dropWhile isSpace (' ' :: u.data) = u.data := by
    rw [List.dropWhile_cons, if_pos (by decide)]
    exact dropWhile_eq_self_of_head (unit_head_nonspace hu)
  simp only [matchPackAt, hm1, Option.bind_eq_bind, Option.some_bind, hd1]
  rw [if_pos (by decide), hd2, hm2]
  simp [hd3, unit_match hu]

/-- The single pattern matches at the start of a full single-form string. -/
theorem matchSingleAt_lit {d : List Char} {f : Option (List Char)} {u : String}
    (h : LitOK d f) (hu : u ∈ UNITS) :
    matchSingleAt (litChars d f ++ ' ' :: u.data) = some (⟨d, f⟩, u) := by
  have hm : matchNum (litChars d f ++ (' ' :: u.data)) = some (⟨d, f⟩, ' ' :: u.data) :=
    matchNum_lit h (by intro c hc; simp at hc; subst hc; exact ⟨by decide, by decide⟩)
  have hd3 : List.dropWhile isSpace (' ' :: u.data) = u.data := by
    rw [List.dropWhile_cons, if_pos (by decide)]
    exact dropWhile_eq_self_of_head (unit_head_nonspace hu)
  simp only [matchSingleAt, hm, Option.bind_eq_bind, Option.some_bind]
  simp [hd3, unit_match hu]

theorem searchPack_cons {c : Char} {cs : List Char} {r : NumLit × NumLit × String}
    (h : matchPackAt (c :: cs) = some r) : searchPack (c :: cs) = some r := by
  rw [searchPack, h]

theorem searchSingle_cons {c : Char} {cs : List Char} {r : NumLit × String}
    (h : matchSingleAt (c :: cs) = some r) : searchSingle (c :: cs) = some r := by
  rw [searchSingle, h]

/-- A successful pack match needs a separator character in the input. -/
theorem matchPackAt_mem {l : List Char} {r : NumLit × NumLit × String}
    (h : matchPackAt l = some r) : 'x' ∈ l ∨ '×' ∈ l := by
  simp only [matchPackAt, Option.bind_eq_bind] at h
  rcases hm : matchNum l with _ | ⟨n1, r1⟩
  · rw [hm] at h
    cases h
  · rw [hm, Option.some_bind] at h
    have hr1 : r1 <:+ l := matchNum_rest_suffix hm
    have hr1d : List.dropWhile isSpace r1 <:+ l := (List.dropWhile_suffix _).trans hr1
    rcases hd : List.dropWhile isSpace r1 with _ | ⟨c, r2⟩ <;> rw [hd] at h
    · cases h
    · by_cases hc : (c = 'x' || c = '×') = true
      · rcases Bool.or_eq_true_iff.mp hc with hcx | hcx
        · left
          have : c ∈ l := hr1d.subset (hd ▸ List.mem_cons_self c r2)
          rwa [← (by exact of_decide_eq_true hcx : c = 'x')]
        · right
          have : c ∈ l := hr1d.subset (hd ▸ List.mem_cons_self c r2)
          rwa [← (by exact of_decide_eq_true hcx : c = '×')]
      · simp [hc] at h

/-- Without a separator character the pack pattern cannot match anywhere. -/
theorem searchPack_none {l : List Char} (hx : 'x' ∉ l) (hm : '×' ∉ l) :
    searchPack l = none := by
  induction l with
  | nil => rfl
  | cons c cs ih =>
    rw [searchPack]
    rcases hp : matchPackAt (c :: cs) with _ | r
    · exact ih (fun h => hx (List.mem_cons_of_mem _ h))
        (fun h => hm (List.mem_cons_of_mem _ h))
    · rcases matchPackAt_mem hp with h | h
      · exact absurd h hx
      · exact absurd h hm

theorem getLast?_append_right {l1 l2 : List Char} (h : l2 ≠ []) :
    (l1 ++ l2).getLast? = l2.getLast? := by
  rw [List.getLast?_append]
  rcases hl : l2.getLast? with _ | a
  · exact absurd (List.getLast?_eq_none_iff.mp hl) h
  · rfl

theorem chain_of_nonspace {l : List Char} (h : ∀ c ∈ l, isSpace c = false) :
    List.Chain' (fun a b => isSpace a = false ∨ isSpace b = false) l := by
  induction l with
  | nil => exact List.chain'_nil
  | cons x xs ih =>
    exact List.chain'_cons'.mpr
      ⟨fun y _ => Or.inl (h x (List.mem_cons_self _ _)),
        ih (fun c hc => h c (List.mem_cons_of_mem _ hc))⟩

/-- A pack-form string is already normalised. -/
theorem normed_pack {d1 d2 : List Char} {f1 f2 : Option (List Char)} {u : String}
    (h1 : LitOK d1 f1) (h2 : LitOK d2 f2) (hu : u ∈ UNITS) :
    NormedL (litChars d1 f1 ++ ' ' :: 'x' :: ' ' :: (litChars d2 f2 ++ ' ' :: u.data)) := by
  refine ⟨?_, ?_, ?_, ?_⟩
  · intro c hc hsp
    rcases List.mem_append.mp hc with h | h
    · exact absurd hsp (by rw [litChars_nonspace h1 h]; simp)
    rcases List.mem_cons.mp h with rfl | h
    · rfl
    rcases List.mem_cons.mp h with rfl | h
    · exact absurd hsp (by decide)
    rcases List.mem_cons.mp h with rfl | h
    · rfl
    rcases List.mem_append.mp h with h | h
    · exact absurd hsp (by rw [litChars_nonspace h2 h]; simp)
    rcases List.mem_cons.mp h with rfl | h
    · rfl
    · exact absurd hsp (by rw [unit_nonspace hu c h]; simp)
  · rw [List.chain'_append]
    refine ⟨chain_of_nonspace (fun c hc => litChars_nonspace h1 hc), ?_, ?_⟩
    · refine List.chain'_cons'.mpr ⟨fun y hy => ?_, ?_⟩
      · simp at hy
        subst hy
        exact Or.inr (by decide)
      refine List.chain'_cons'.mpr ⟨fun y hy => Or.inl (by decide), ?_⟩
      refine List.chain'_cons'.mpr ⟨fun y hy => Or.inr (lit_append_head h2 y hy), ?_⟩
      rw [List.chain'_append]
      refine ⟨chain_of_nonspace (fun c hc => litChars_nonspace h2 hc), ?_, ?_⟩
      · refine List.chain'_cons'.mpr ⟨fun y hy => Or.inr (unit_head_nonspace hu y hy), ?_⟩
        exact chain_of_nonspace (unit_nonspace hu)
      · intro x hx y _
        exact Or.inl (litChars_nonspace h2 (List.mem_of_mem_getLast? hx))
    · intro x hx y _
      exact Or.inl (litChars_nonspace h1 (List.mem_of_mem_getLast? hx))
  · exact lit_append_head h1
  · intro c hc
    rw [getLast?_append_right (by simp)] at hc
    rw [show (' ' :: 'x' :: ' ' :: (litChars d2 f2 ++ ' ' :: u.data))
        = [' ', 'x', ' '] ++ (litChars d2 f2 ++ ' ' :: u.data) from rfl] at hc
    rw [getLast?_append_right (by
      intro hcon
      exact absurd (List.append_eq_nil.mp hcon).2 (by simp))] at hc
    rw [getLast?_append_right (by simp)] at hc
    rw [show (' ' :: u.data) = [' '] ++ u.data from rfl] at hc
    rw [getLast?_append_right (unit_ne_nil hu)] at hc
    exact unit_getLast_nonspace hu c hc

/-- A single-form string is already normalised. -/
theorem normed_single {d : List Char} {f : Option (List Char)} {u : String}
    (h : LitOK d f) (hu : u ∈ UNITS) :
    NormedL (litChars d f ++ ' ' :: u.data) := by
  refine ⟨?_, ?_, ?_, ?_⟩
  · intro c hc hsp
    rcases List.mem_append.mp hc with h1 | h1
    · exact absurd hsp (by rw [litChars_nonspace h h1]; simp)
    rcases List.mem_cons.mp h1 with rfl | h1
    · rfl
    · exact absurd hsp (by rw [unit_nonspace hu c h1]; simp)
  · rw [List.chain'_append]
    refine ⟨chain_of_nonspace (fun c hc => litChars_nonspace h hc), ?_, ?_⟩
    · refine List.chain'_cons'.mpr ⟨fun y hy => Or.inr (unit_head_nonspace hu y hy), ?_⟩
      exact chain_of_nonspace (unit_nonspace hu)
    · intro x hx y _
      exact Or.inl (litChars_nonspace h (List.mem_of_mem_getLast? hx))
  · exact lit_append_head h
  · intro c hc
    rw [getLast?_append_right (by simp)] at hc
    rw [show (' ' :: u.data) = [' '] ++ u.data from rfl] at hc
    rw [getLast?_append_right (unit_ne_nil hu)] at hc
    exact unit_getLast_nonspace hu c hc

theorem toLowerL_eq_self {l : List Char} (h : ∀ c ∈ l, c.toLower = c) :
    toLowerL l = l := by
  rw [toLowerL]
  have he : List.map Char.toLower l = List.map id l :=
    List.map_congr_left (fun a ha => h a ha)
  rw [he, List.map_id]

/-- Full evaluation of `parse_size` on an arbitrary pack-form string. -/
theorem parse_size_pack {d1 d2 : List Char} {f1 f2 : Option (List Char)} {u : String}
    (h1 : LitOK d1 f1) (h2 : LitOK d2 f2) (hu : u ∈ UNITS) :
    parse_size (String.mk (litChars d1 f1) ++ " x " ++ String.mk (litChars d2 f2) ++ " " ++ u)
      = (ratMul (ratMul (numVal ⟨d1, f1⟩) (numVal ⟨d2, f2⟩)) (unitScalar u), unitOut u,
         pyIntOrFloatStr ⟨d1, f1⟩ ++ " x " ++ pyFloatStr ⟨d2, f2⟩ ++ " " ++ u) := by
  have hdata : (String.mk (litChars d1 f1) ++ " x " ++ String.mk (litChars d2 f2)
        ++ " " ++ u).data
      = litChars d1 f1 ++ ' ' :: 'x' :: ' ' :: (litChars d2 f2 ++ ' ' :: u.data) := by
    simp only [String.data_append]
    simp [List.append_assoc]
  have hlow : toLowerL (litChars d1 f1 ++ ' ' :: 'x' :: ' ' :: (litChars d2 f2 ++ ' ' :: u.data))
      = litChars d1 f1 ++ ' ' :: 'x' :: ' ' :: (litChars d2 f2 ++ ' ' :: u.data) := by
    refine toLowerL_eq_self ?_
    intro c hc
    rcases List.mem_append.mp hc with h | h
    · exact litChars_toLower h1 h
    rcases List.mem_cons.mp h with rfl | h
    · decide
    rcases List.mem_cons.mp h with rfl | h
    · decide
    rcases List.mem_cons.mp h with rfl | h
    · decide
    rcases List.mem_append.mp h with h | h
    · exact litChars_toLower h2 h
    rcases List.mem_cons.mp h with rfl | h
    · decide
    · exact unit_toLower hu c h
  have hnorm :
      normalizeL (litChars d1 f1 ++ ' ' :: 'x' :: ' ' :: (litChars d2 f2 ++ ' ' :: u.data))
      = litChars d1 f1 ++ ' ' :: 'x' :: ' ' :: (litChars d2 f2 ++ ' ' :: u.data) :=
    normalizeL_eq_self (normed_pack h1 h2 hu)
  have hsp :
      searchPack (litChars d1 f1 ++ ' ' :: 'x' :: ' ' :: (litChars d2 f2 ++ ' ' :: u.data))
      = some (⟨d1, f1⟩, ⟨d2, f2⟩, u) := by
    obtain ⟨a, as, hcons⟩ :=
      lit_append_cons (f := f1) (r := ' ' :: 'x' :: ' ' :: (litChars d2 f2 ++ ' ' :: u.data)) h1.1
    rw [hcons]
    refine searchPack_cons ?_
    rw [← hcons]
    exact matchPackAt_lit h1 h2 hu
  simp only [parse_size, hdata, hlow, hnorm, hsp]

/-- Full evaluation of `parse_size` on an arbitrary single-form string. -/
theorem parse_size_single {d : List Char} {f : Option (List Char)} {u : String}
    (h : LitOK d f) (hu : u ∈ UNITS) :
    parse_size (String.mk (litChars d f) ++ " " ++ u)
      = (ratMul (numVal ⟨d, f⟩) (unitScalar u), unitOut u,
         pyFloatStr ⟨d, f⟩ ++ " " ++ u) := by
  have hdata : (String.mk (litChars d f) ++ " " ++ u).data
      = litChars d f ++ ' ' :: u.data := by
    simp only [String.data_append]
    simp [List.append_assoc]
  have hlow : toLowerL (litChars d f ++ ' ' :: u.data) = litChars d f ++ ' ' :: u.data := by
    refine toLowerL_eq_self ?_
    intro c hc
    rcases List.mem_append.mp hc with h1 | h1
    · exact litChars_toLower h h1
    rcases List.mem_cons.mp h1 with rfl | h1
    · decide
    · exact unit_toLower hu c h1
  have hnorm : normalizeL (litChars d f ++ ' ' :: u.data) = litChars d f ++ ' ' :: u.data :=
    normalizeL_eq_self (normed_single h hu)
  have hnone : searchPack (litChars d f ++ ' ' :: u.data) = none := by
    refine searchPack_none ?_ ?_
    · intro hmem
      rcases List.mem_append.mp hmem with h1 | h1
      · exact absurd rfl (litChars_ne_x h h1).1
      rcases List.mem_cons.mp h1 with he | h1
      · cases he
      · exact absurd rfl (unit_ne_x hu _ h1).1
    · intro hmem
      rcases List.mem_append.mp hmem with h1 | h1
      · exact absurd rfl (litChars_ne_x h h1).2
      rcases List.mem_cons.mp h1 with he | h1
      · cases he
      · exact absurd rfl (unit_ne_x hu _ h1).2
  have hss : searchSingle (litChars d f ++ ' ' :: u.data) = some (⟨d, f⟩, u) := by
    obtain ⟨a, as, hcons⟩ := lit_append_cons (f := f) (r := ' ' :: u.data) h.1
    rw [hcons]
    refine searchSingle_cons ?_
    rw [← hcons]
    exact matchSingleAt_lit h hu
  simp only [parse_size, hdata, hlow, hnorm, hnone, hss]

/-- Claim C2: for every size string in pack form `<n> x <q> <unit>` or
single form `<q> <unit>` built from decimal literals and a unit token
`g`, `kg`, `ml` or `l`, `parse_size` returns the quantity
`count * each-quantity * unit-scalar` (respectively `value * unit-scalar`)
scaled to the canonical unit, together with the corresponding unit kind
(`"kg"` for MASS, `"L"` for VOLUME); the scalars are 1/1000 for `g`/`ml`
and 1 for `kg`/`l`; the pack grammar is tried before the single grammar
(the definition of `parse_size`); in particular `"6 x 125 g"` gives
quantity 3/4 with MASS, `"1.5 L"` gives 3/2 with VOLUME (exercising
case-insensitivity of the unit token), and `"500 g"` gives 1/2 with
MASS. -/
theorem parse_size_valid_grammar (d1 d2 d : List Char) (f1 f2 f : Option (List Char))
    (u : String) (h1 : LitOK d1 f1) (h2 : LitOK d2 f2) (h : LitOK d f)
    (hu : u ∈ UNITS) :
    ((parse_size (String.mk (litChars d1 f1) ++ " x " ++ String.mk (litChars d2 f2)
        ++ " " ++ u)).1 = numVal ⟨d1, f1⟩ * numVal ⟨d2, f2⟩ * unitScalar u ∧
      (parse_size (String.mk (litChars d1 f1) ++ " x " ++ String.mk (litChars d2 f2)
        ++ " " ++ u)).2.1 = unitOut u) ∧
    ((parse_size (String.mk (litChars d f) ++ " " ++ u)).1
        = numVal ⟨d, f⟩ * unitScalar u ∧
      (parse_size (String.mk (litChars d f) ++ " " ++ u)).2.1 = unitOut u) ∧
    (unitScalar "g" = 1 / 1000 ∧ unitScalar "kg" = 1 ∧ unitScalar "ml" = 1 / 1000 ∧
      unitScalar "l" = 1 ∧ unitOut "g" = "kg" ∧ unitOut "kg" = "kg" ∧
      unitOut "ml" = "L" ∧ unitOut "l" = "L") ∧
    (parse_size "6 x 125 g").1 = 3 / 4 ∧ (parse_size "6 x 125 g").2.1 = "kg" ∧
    (parse_size "1.5 L").1 = 3 / 2 ∧ (parse_size "1.5 L").2.1 = "L" ∧
    (parse_size "500 g").1 = 1 / 2 ∧ (parse_size "500 g").2.1 = "kg" := by
  refine ⟨⟨?_, ?_⟩, ⟨?_, ?_⟩, ⟨?_, rfl, ?_, rfl, rfl, rfl, rfl, rfl⟩, ?_, ?_, ?_, ?_, ?_, ?_⟩
  · rw [parse_size_pack h1 h2 hu, ratMul_eq_mul, ratMul_eq_mul]
  · rw [parse_size_pack h1 h2 hu]
  · rw [parse_size_single h hu, ratMul_eq_mul]
  · rw [parse_size_single h hu]
  · rw [show unitScalar "g" = mkRat 1 1000 from rfl, Rat.mkRat_eq_div]
    norm_num
  · rw [show unitScalar "ml" = mkRat 1 1000 from rfl, Rat.mkRat_eq_div]
    norm_num
  · rw [show (3 : Rat) / 4 = mkRat 3 4 from by rw [Rat.mkRat_eq_div]; norm_num]
    decide
  · decide
  · rw [show (3 : Rat) / 2 = mkRat 3 2 from by rw [Rat.mkRat_eq_div]; norm_num]
    decide
  · decide
  · rw [show (1 : Rat) / 2 = mkRat 1 2 from by rw [Rat.mkRat_eq_div]; norm_num]
    decide
  · decide

/-- Witness for claim C2 on the pack string `"6" x "125" "g"`, with the
literal well-formedness and unit-membership hypotheses discharged on
the concrete input. -/
theorem parse_size_valid_grammar_witness :
    LitOK ['6'] none ∧ LitOK ['1', '2', '5'] none ∧ LitOK ['5', '0', '0'] none ∧
    ("g" : String) ∈ UNITS ∧
    (parse_size (String.mk (litChars ['6'] none) ++ " x "
        ++ String.mk (litChars ['1', '2', '5'] none) ++ " " ++ "g")).1
      = numVal ⟨['6'], none⟩ * numVal ⟨['1', '2', '5'], none⟩ * unitScalar "g" :=
  have hok6 : LitOK ['6'] none := ⟨by decide, by decide, fun _ h => nomatch h⟩
  have hok125 : LitOK ['1', '2', '5'] none := ⟨by decide, by decide, fun _ h => nomatch h⟩
  have hok500 : LitOK ['5', '0', '0'] none := ⟨by decide, by decide, fun _ h => nomatch h⟩
  ⟨hok6, hok125, hok500, by decide,
    (parse_size_valid_grammar ['6'] ['1', '2', '5'] ['5', '0', '0'] none none none "g"
      hok6 hok125 hok500 (by decide)).1.1⟩

/-! ## Claim C9 counterexample: the display string -/

/-- Claim C9 counterexample: the display string of `parse_size "500 g"`
is `"500.0 g"`, not `"500 g"`: the single-form quantity is interpolated
as a Python float, so an integral quantity gains a trailing `.0`. -/
theorem display_trailing_decimal_counterexample :
    (parse_size "500 g").2.2 = "500.0 g" ∧ (parse_size "500 g").2.2 ≠ "500 g" := by
  exact ⟨by decide, by decide⟩

/-- Claim C9 amended: for pack- and single-form size strings built from
canonical integer literals (no leading zeros), the display string keeps
the pack count without a trailing decimal, but renders the each-quantity
and the single-form quantity in Python float style, so an integral
quantity gains a trailing `.0`; the unit token is kept in lowercased
form.  Concretely, `"500 g"` displays as `"500.0 g"`, `"6 x 125 g"` as
`"6 x 125.0 g"`, and `"1.5 L"` as `"1.5 l"`. -/
theorem parse_size_display_amended (d1 d2 : List Char) (u : String)
    (h1 : d1 ≠ [] ∧ ∀ c ∈ d1, c ∈ DIGITS) (h2 : d2 ≠ [] ∧ ∀ c ∈ d2, c ∈ DIGITS)
    (hz1 : stripLeadZeros d1 = d1) (hz2 : stripLeadZeros d2 = d2)
    (hu : u ∈ UNITS) :
    (parse_size (String.mk d1 ++ " x " ++ String.mk d2 ++ " " ++ u)).2.2
      = String.mk d1 ++ " x " ++ String.mk d2 ++ ".0" ++ " " ++ u ∧
    (parse_size (String.mk d2 ++ " " ++ u)).2.2 = String.mk d2 ++ ".0" ++ " " ++ u ∧
    (parse_size "500 g").2.2 = "500.0 g" ∧
    (parse_size "6 x 125 g").2.2 = "6 x 125.0 g" ∧
    (parse_size "1.5 L").2.2 = "1.5 l" := by
  have hl1 : LitOK d1 none := ⟨h1.1, h1.2, fun _ h => nomatch h⟩
  have hl2 : LitOK d2 none := ⟨h2.1, h2.2, fun _ h => nomatch h⟩
  have e1 : String.mk (litChars d1 none) = String.mk d1 := by
    simp [litChars, fracChars]
  have e2 : String.mk (litChars d2 none) = String.mk d2 := by
    simp [litChars, fracChars]
  have hint : pyIntOrFloatStr ⟨d1, none⟩ = String.mk d1 := by
    simp [pyIntOrFloatStr, canonFrac, hz1]
  have hflt : pyFloatStr ⟨d2, none⟩ = String.mk d2 ++ ".0" := by
    simp [pyFloatStr, canonFrac, hz2]
  have hp := parse_size_pack hl1 hl2 hu
  rw [e1, e2] at hp
  have hs := parse_size_single hl2 hu
  rw [e2] at hs
  refine ⟨?_, ?_, by decide, by decide, by decide⟩
  · rw [hp]
    show pyIntOrFloatStr ⟨d1, none⟩ ++ " x " ++ pyFloatStr ⟨d2, none⟩ ++ " " ++ u = _
    rw [hint, hflt]
    apply String.ext
    simp [String.data_append]
  · rw [hs]
    show pyFloatStr ⟨d2, none⟩ ++ " " ++ u = _
    rw [hflt]

/-- Witness for claim C9 on `"500" "g"` and `"6" x "125" "g"`, with the
canonical-digit-string and unit hypotheses discharged concretely. -/
theorem parse_size_display_amended_witness :
    (['6'] ≠ [] ∧ ∀ c ∈ ['6'], c ∈ DIGITS) ∧
    (['1', '2', '5'] ≠ [] ∧ ∀ c ∈ ['1', '2', '5'], c ∈ DIGITS) ∧
    stripLeadZeros ['6'] = ['6'] ∧ stripLeadZeros ['1', '2', '5'] = ['1', '2', '5'] ∧
    ("g" : String) ∈ UNITS ∧
    (parse_size (String.mk ['6'] ++ " x " ++ String.mk ['1', '2', '5'] ++ " " ++ "g")).2.2
      = String.mk ['6'] ++ " x " ++ String.mk ['1', '2', '5'] ++ ".0" ++ " " ++ "g" ∧
    (parse_size (String.mk ['1', '2', '5'] ++ " " ++ "g")).2.2
      = String.mk ['1', '2', '5'] ++ ".0" ++ " " ++ "g" :=
  have h6 : (['6'] : List Char) ≠ [] ∧ ∀ c ∈ (['6'] : List Char), c ∈ DIGITS :=
    ⟨by decide, by decide⟩
  have h125 : (['1', '2', '5'] : List Char) ≠ [] ∧
      ∀ c ∈ (['1', '2', '5'] : List Char), c ∈ DIGITS := ⟨by decide, by decide⟩
  have hall := parse_size_display_amended ['6'] ['1', '2', '5'] "g" h6 h125
    (by decide) (by decide) (by decide)
  ⟨h6, h125, by decide, by decide, by decide, hall.1, hall.2.1⟩

end Scrape
